import Mathlib

/-!
# Verification of the q2-sidle core against its specification

This development embeds, in Lean 4, the data model and operations of the
q2-sidle plugin (SMURF-style multi-region marker-gene reconstruction) and
proves properties of them.

The repository source available here is `q2_sidle/plugin_setup.py`, the
plugin registration module: it fixes the parameter domains of every
operation (`Int % Range(...)`, `Float % Range(...)`, `Str % Choices(...)`).
Those registrations are embedded directly.  The algorithmic components
(sequence expander, kmer aligner, reconstruction engine, taxonomy
reconciler) live outside the available source; their definitions below are
modelled from the specification, as marked in each doc comment.
-/

namespace Sidle

/-! ## Parameter-domain semantics (plugin_setup.py)

qiime2 parameter expressions used by the registrations.  qiime2's
`Range(start, end)` predicate is inclusive at the start and exclusive at
the end by default (`inclusive_start=True, inclusive_end=False`); a `None`
bound is absent.  `Choices(...)` accepts exactly the listed strings. -/

/-- A primitive qiime2 parameter value: integer, float, string or boolean. -/
inductive QVal where
  | int (i : Int)
  | float (q : Rat)
  | str (s : String)
  | bool (b : Bool)
deriving DecidableEq

/-- The qiime2 parameter-type expressions appearing in plugin_setup.py:
`Int % Range(lo, hi)`, `Float % Range(lo, hi)`, `Str % Choices(...)`,
plain `Str`, `Bool`, `Metadata`.  Range bounds follow the qiime2 default:
inclusive start, exclusive end. -/
inductive QType where
  | intRange (lo hi : Option Int)
  | floatRange (lo hi : Option Rat)
  | strChoices (cs : List String)
  | qstr
  | qbool
  | metadata

/-- Whether an integer is inside an optional inclusive lower bound. -/
def lowOkInt (lo : Option Int) (x : Int) : Bool :=
  match lo with
  | none => true
  | some l => decide (l ≤ x)

/-- Whether an integer is inside an optional exclusive upper bound. -/
def highOkInt (hi : Option Int) (x : Int) : Bool :=
  match hi with
  | none => true
  | some h => decide (x < h)

/-- Whether a rational is inside an optional inclusive lower bound. -/
def lowOkRat (lo : Option Rat) (x : Rat) : Bool :=
  match lo with
  | none => true
  | some l => decide (l ≤ x)

/-- Whether a rational is inside an optional exclusive upper bound. -/
def highOkRat (hi : Option Rat) (x : Rat) : Bool :=
  match hi with
  | none => true
  | some h => decide (x < h)

/-- Acceptance of a value by a qiime2 parameter type, as validated at
registration/invocation by the qiime2 framework. -/
def QType.accepts : QType → QVal → Bool
  | .intRange lo hi, .int i => lowOkInt lo i && highOkInt hi i
  | .floatRange lo hi, .float q => lowOkRat lo q && highOkRat hi q
  | .strChoices cs, .str s => cs.contains s
  | .qstr, .str _ => true
  | .qbool, .bool _ => true
  | .metadata, _ => true
  | _, _ => false

/-! Parameter registrations, transcribed from plugin_setup.py. -/

/-- Registration of filter_degenerate_sequences: `'chunk_size': (Int % Range(1, None))`. -/
def filter_degenerate_sequences_chunk_size : QType := .intRange (some 1) none

/-- Registration of filter_degenerate_sequences: `'max_degen': (Int % Range(0, None))`. -/
def filter_degenerate_sequences_max_degen : QType := .intRange (some 0) none

/-- Registration of align_regional_kmers: `'max_mismatch': Int % Range(1, None)`. -/
def align_regional_kmers_max_mismatch : QType := .intRange (some 1) none

/-- Registration of align_regional_kmers: `'chunk_size': (Int % Range(1, 5000))`. -/
def align_regional_kmers_chunk_size : QType := .intRange (some 1) (some 5000)

/-- Registration of reconstruct_counts: `'per_nucleotide_error': Float % Range(0, 1)`. -/
def reconstruct_counts_per_nucleotide_error : QType := .floatRange (some 0) (some 1)

/-- Registration of reconstruct_counts: `'max_mismatch': Int % Range(0, None)`. -/
def reconstruct_counts_max_mismatch : QType := .intRange (some 0) none

/-- Registration of reconstruct_counts: `'min_abund': Float % Range(0, 1)`. -/
def reconstruct_counts_min_abund : QType := .floatRange (some 0) (some 1)

/-- Registration of reconstruct_taxonomy: `'database': Str % Choices('none', 'greengenes', 'silva')`. -/
def reconstruct_taxonomy_database : QType :=
  .strChoices ["none", "greengenes", "silva"]

/-- Registration of reconstruct_taxonomy: `'define_missing': Str % Choices('merge', 'inherit', 'ignore')`. -/
def reconstruct_taxonomy_define_missing : QType :=
  .strChoices ["merge", "inherit", "ignore"]

/-- Registration of reconstruct_taxonomy: `'ambiguity_handling': Str % Choices('missing', 'ignore')`. -/
def reconstruct_taxonomy_ambiguity_handling : QType :=
  .strChoices ["missing", "ignore"]

/-! ## Sequence Expander

The expander itself is outside the available source (plugin_setup.py only
registers `filter_degenerate_sequences` and the extraction functions that
call it); the definitions below are modelled from the spec. -/

/-- Modelled from the spec: the IUPAC nucleotide code table.  Concrete
bases are `A`, `C`, `G`, `T`; every other IUPAC code stands for the listed
set of possible concrete bases.  Characters outside the IUPAC alphabet
have no possible base. -/
def iupac : Char → List Char
  | 'A' => ['A']
  | 'C' => ['C']
  | 'G' => ['G']
  | 'T' => ['T']
  | 'R' => ['A', 'G']
  | 'Y' => ['C', 'T']
  | 'S' => ['C', 'G']
  | 'W' => ['A', 'T']
  | 'K' => ['G', 'T']
  | 'M' => ['A', 'C']
  | 'B' => ['C', 'G', 'T']
  | 'D' => ['A', 'G', 'T']
  | 'H' => ['A', 'C', 'T']
  | 'V' => ['A', 'C', 'G']
  | 'N' => ['A', 'C', 'G', 'T']
  | _ => []

/-- A position is degenerate when its set of possible bases is not a
single base.  `countDegen` counts the degenerate positions of a sequence. -/
def countDegen (s : List Char) : Nat :=
  (s.filter (fun c => (iupac c).length != 1)).length

/-- The product of the branching factors of the degenerate positions of a
sequence. -/
def degenProduct (s : List Char) : Nat :=
  ((s.filter (fun c => (iupac c).length != 1)).map (fun c => (iupac c).length)).prod

/-- Cartesian product of each position's possible bases. -/
def expandAll : List Char → List (List Char)
  | [] => [[]]
  | c :: rest => (iupac c).flatMap (fun b => (expandAll rest).map (fun t => b :: t))

/-- Failure raised by the Sequence Expander. -/
inductive ExpandError where
  | ExcessDegeneracy
deriving DecidableEq

/-- Modelled from the spec: the Sequence Expander.  Input: one nucleotide
string possibly containing IUPAC degenerate codes and a maximum-degeneracy
threshold.  Output: the set of concrete sequences obtained by the
Cartesian product of each position's possible bases, or a rejection with
`ExcessDegeneracy` when the count of degenerate positions exceeds the
threshold. -/
def expand_degenerates (maxDegen : Nat) (s : List Char) :
    Except ExpandError (List (List Char)) :=
  if countDegen s > maxDegen then .error .ExcessDegeneracy
  else .ok (expandAll s)

/-! ## Kmer Aligner

The aligner body is outside the available source (plugin_setup.py line 214
registers `q2_sidle.align_regional_kmers`); modelled from the spec. -/

/-- One regional database kmer: collapsed group id and concrete sequence. -/
structure KmerEntry where
  kmerId : String
  seq : List Char
deriving DecidableEq

/-- One ASV representative sequence. -/
structure RepSeq where
  asvId : String
  seq : List Char
deriving DecidableEq

/-- One retained (ASV, KmerGroup) alignment pair with its mismatch count. -/
structure AlignRecord where
  asv : String
  kmer : String
  mismatch : Nat
deriving DecidableEq

/-- Position-wise Hamming distance (no indels) over the zipped common
length of the two sequences. -/
def hamming : List Char → List Char → Nat
  | a :: as, b :: bs => (if a = b then 0 else 1) + hamming as bs
  | _, _ => 0

/-- All alignment records of one representative sequence: every kmer group
whose concrete sequence is within `maxMismatch` of it. -/
def asvMatches (kmers : List KmerEntry) (maxMismatch : Nat) (r : RepSeq) :
    List AlignRecord :=
  (kmers.filter (fun k => hamming k.seq r.seq ≤ maxMismatch)).map
    (fun k => { asv := r.asvId, kmer := k.kmerId, mismatch := hamming k.seq r.seq })

/-- Modelled from the spec: the Kmer Aligner.  For each representative
sequence: a length different from the database trim length sends it to the
discard output with no alignment entry; otherwise all kmer groups within
`maxMismatch` Hamming distance are retained, and a sequence with zero
qualifying matches is discarded.  Returns (alignment records, discarded
ASV ids). -/
def align_regional_kmers (kmers : List KmerEntry) (maxMismatch trimLength : Nat) :
    List RepSeq → List AlignRecord × List String
  | [] => ([], [])
  | r :: rs =>
    let p := align_regional_kmers kmers maxMismatch trimLength rs
    if r.seq.length ≠ trimLength then (p.1, r.asvId :: p.2)
    else
      match asvMatches kmers maxMismatch r with
      | [] => (p.1, r.asvId :: p.2)
      | e :: es => (e :: es ++ p.1, p.2)

/-! ## Reconstruction Engine

The engine body is outside the available source (plugin_setup.py line 271
registers `q2_sidle.reconstruct_counts`); modelled from the spec.
Reference ids are represented as natural numbers.  A *link edge* is the
set of reference ids covered by one ASV's alignment set in one region
(through its matched kmer groups); the engine computes connected
components of the reference-link graph over all regions, and each
component becomes one final feature. -/

/-- Whether two reference-id lists share an element. -/
def meets (a b : List Nat) : Bool := a.any (fun x => b.contains x)

/-- The component obtained by merging a link edge with every existing
component it touches. -/
def mergedComp (e : List Nat) (comps : List (List Nat)) : List Nat :=
  (e ++ (comps.filter (fun c => meets c e)).flatten).dedup

/-- Modelled from the spec: merge one link edge into a list of pairwise
disjoint components (union-find style): every component the edge touches
is merged with it into a single component; untouched components are kept.
An empty edge carries no link and is a no-op. -/
def insertEdge (e : List Nat) (comps : List (List Nat)) : List (List Nat) :=
  if e.isEmpty then comps
  else mergedComp e comps :: comps.filter (fun c => !(meets c e))

/-- Modelled from the spec: connected components of the reference-link
graph, one per final feature. -/
def components (edges : List (List Nat)) : List (List Nat) :=
  edges.foldr insertEdge []

/-- Canonical form of a reference set: sorted, without duplicates. -/
def canonRefs (c : List Nat) : List Nat :=
  List.insertionSort (fun a b => a ≤ b) c.dedup

/-- Modelled from the spec: the final feature id, derived
deterministically from the sorted set of contributing reference ids. -/
def featureId (c : List Nat) : String :=
  String.intercalate "|" ((canonRefs c).map Nat.repr)

/-- Modelled from the spec: the ReconstructionMap — final feature id to
the set of reference ids it represents. -/
def reconstruction_map (edges : List (List Nat)) : List (String × List Nat) :=
  (components edges).map (fun c => (featureId c, canonRefs c))

/-- The distinct final features an ASV maps to: the components met by the
set of references covered by its matched kmer groups. -/
def asvFeatures (comps : List (List Nat)) (asvRefs : List Nat) : List (List Nat) :=
  comps.filter (fun c => meets c asvRefs)

/-- Modelled from the spec: even split of one ASV's abundance `a` across
its distinct final features (the `count_degenerates = False` branch). -/
def redistribute (comps : List (List Nat)) (asvRefs : List Nat) (a : Rat) :
    List (List Nat × Rat) :=
  let fs := asvFeatures comps asvRefs
  fs.map (fun f => (f, a / (fs.length : Rat)))

/-- Modelled from the spec: degeneracy-weighted split of one ASV's
abundance across its final features (the `count_degenerates = True`
branch), with `w f` the weight of final feature `f` derived from the
expansion multiplicities of the matched groups. -/
def redistributeWeighted (w : List Nat → Rat) (comps : List (List Nat))
    (asvRefs : List Nat) (a : Rat) : List (List Nat × Rat) :=
  let fs := asvFeatures comps asvRefs
  fs.map (fun f => (f, a * (w f / (fs.map w).sum)))

/-- One (region, ASV, sample) abundance observation fed to the engine:
the reference set covered by the ASV's alignment, the sample id, and the
observed abundance. -/
structure Observation where
  asvRefs : List Nat
  sample : String
  abund : Rat

/-- Modelled from the spec: one cell of the ReconstructedTable before
`min_abund` filtering — the total abundance redistributed to final
feature `fid` in `sample`, summed over all observations (contributions
from different regions are summed). -/
def reconstructed_table (edges : List (List Nat)) (obs : List Observation)
    (fid : String) (sample : String) : Rat :=
  ((obs.filter (fun o => o.sample == sample)).map (fun o =>
    (((redistribute (components edges) o.asvRefs o.abund).filter
        (fun p => featureId p.1 == fid)).map Prod.snd).sum)).sum

/-- Two reference-id lists are disjoint when they share no element. -/
def RefDisjoint (a b : List Nat) : Prop := ∀ x, x ∈ a → x ∈ b → False

/-- Two references are linked when a chain of link edges connects them;
the classes of this relation are the intended connected components. -/
inductive Reach (edges : List (List Nat)) : Nat → Nat → Prop where
  | edge : ∀ e x y, e ∈ edges → x ∈ e → y ∈ e → Reach edges x y
  | trans : ∀ x y z, Reach edges x y → Reach edges y z → Reach edges x z

/-! ## Taxonomy Reconciler

The reconciler body is outside the available source (plugin_setup.py line
342 registers `q2_sidle.reconstruct_taxonomy`); modelled from the spec.
A taxonomy is a rank-delimited list of labels from the root; labels are
compared after the missing/ambiguous-label policy has been applied. -/

/-- Rank-by-rank agreement of two taxonomies: keeps every leading rank on
which both agree and truncates at the first disagreement. -/
def commonRanks : List String → List String → List String
  | a :: as, b :: bs => if a = b then a :: commonRanks as bs else []
  | _, _ => []

/-- Modelled from the spec: the consensus taxonomy of the contributing
references of one final feature — the ranks (from the root) on which all
references agree, truncated at the first rank of disagreement. -/
def reconstruct_taxonomy : List (List String) → List String
  | [] => []
  | t :: ts => ts.foldl commonRanks t

/-- Predicate: `p` is a leading segment of `t` (`t` extends `p`). -/
def leadsIn (p t : List String) : Prop := ∃ s, p ++ s = t

/-! ## Theorems -/

theorem strChoices_accepts_iff (cs : List String) (s : String) :
    (QType.strChoices cs).accepts (.str s) = true ↔ s ∈ cs := by
  simp [QType.accepts, List.contains]

theorem intRange_accepts_iff (lo hi : Option Int) (i : Int) :
    (QType.intRange lo hi).accepts (.int i) = true ↔
      (∀ l, lo = some l → l ≤ i) ∧ (∀ h, hi = some h → i < h) := by
  cases lo <;> cases hi <;>
    simp [QType.accepts, lowOkInt, highOkInt, lowOkRat, highOkRat]

theorem floatRange_accepts_iff (lo hi : Option Rat) (q : Rat) :
    (QType.floatRange lo hi).accepts (.float q) = true ↔
      (∀ l, lo = some l → l ≤ q) ∧ (∀ h, hi = some h → q < h) := by
  cases lo <;> cases hi <;>
    simp [QType.accepts, lowOkInt, highOkInt, lowOkRat, highOkRat]


/-- Per-chunk aligner results merge by concatenation into the whole-input
result: chunking the representative sequences does not change the
alignment or the discard output. -/
theorem align_regional_kmers_append (kmers : List KmerEntry) (m L : Nat)
    (rs₁ rs₂ : List RepSeq) :
    align_regional_kmers kmers m L (rs₁ ++ rs₂) =
      ((align_regional_kmers kmers m L rs₁).1 ++ (align_regional_kmers kmers m L rs₂).1,
       (align_regional_kmers kmers m L rs₁).2 ++ (align_regional_kmers kmers m L rs₂).2) := by
  induction rs₁ with
  | nil => simp [align_regional_kmers]
  | cons r rs ih =>
    simp only [List.cons_append, align_regional_kmers, List.append_eq]
    rw [ih]
    by_cases h : r.seq.length ≠ L
    · simp [h]
    · cases hm : asvMatches kmers m r <;> simp [h, hm]

/-- C7: the Taxonomy Reconciler's policy parameters are closed
enumerations — `database` accepts exactly none/greengenes/silva,
`define_missing` exactly merge/inherit/ignore, `ambiguity_handling`
exactly missing/ignore; every other string value is rejected by the
registered parameter type. -/
theorem taxonomy_policy_params_closed :
    (∀ s : String, reconstruct_taxonomy_database.accepts (.str s) = true ↔
      s = "none" ∨ s = "greengenes" ∨ s = "silva") ∧
    (∀ s : String, reconstruct_taxonomy_define_missing.accepts (.str s) = true ↔
      s = "merge" ∨ s = "inherit" ∨ s = "ignore") ∧
    (∀ s : String, reconstruct_taxonomy_ambiguity_handling.accepts (.str s) = true ↔
      s = "missing" ∨ s = "ignore") := by
  refine ⟨fun s => ?_, fun s => ?_, fun s => ?_⟩ <;>
    simp [reconstruct_taxonomy_database, reconstruct_taxonomy_define_missing,
      reconstruct_taxonomy_ambiguity_handling, strChoices_accepts_iff]

/-- C8 counterexample: the registered types of `per_nucleotide_error` and
`min_abund` are `Float % Range(0, 1)`, whose upper bound is exclusive, so
the endpoint value 1 is rejected — the claim that every float in the
closed interval [0,1] (including 1) is accepted is false. -/
theorem per_nucleotide_error_endpoint_one_rejected :
    reconstruct_counts_per_nucleotide_error.accepts (.float 1) = false ∧
    reconstruct_counts_min_abund.accepts (.float 1) = false := by
  exact ⟨rfl, rfl⟩

/-- C8 (amended): `per_nucleotide_error` and `min_abund` are accepted
exactly when the value lies in the half-open interval [0, 1): 0 is a
valid configuration, 1 and everything outside [0, 1) are rejected. -/
theorem error_and_min_abund_half_open (q : Rat) :
    (reconstruct_counts_per_nucleotide_error.accepts (.float q) = true ↔ 0 ≤ q ∧ q < 1) ∧
    (reconstruct_counts_min_abund.accepts (.float q) = true ↔ 0 ≤ q ∧ q < 1) := by
  constructor <;>
    simp [reconstruct_counts_per_nucleotide_error, reconstruct_counts_min_abund,
      floatRange_accepts_iff]

/-- C9 counterexample: the alignment operation registers
`chunk_size: Int % Range(1, 5000)` with an exclusive upper bound, so the
positive integer 5000 is rejected — the claim that every positive integer
chunk size is accepted is false. -/
theorem align_chunk_size_5000_rejected :
    align_regional_kmers_chunk_size.accepts (.int 5000) = false := by
  exact rfl

/-- C9 (amended): chunk size remains a pure performance knob — chunked
aligner runs merge by concatenation into the whole-input result — but the
alignment operation accepts `chunk_size` exactly on 1 ≤ c < 5000 (while
`filter_degenerate_sequences` accepts every positive integer chunk size). -/
theorem chunk_size_domains :
    (∀ n : Int, align_regional_kmers_chunk_size.accepts (.int n) = true ↔
      1 ≤ n ∧ n < 5000) ∧
    (∀ n : Int, filter_degenerate_sequences_chunk_size.accepts (.int n) = true ↔
      1 ≤ n) ∧
    (∀ (kmers : List KmerEntry) (m L : Nat) (rs₁ rs₂ : List RepSeq),
      align_regional_kmers kmers m L (rs₁ ++ rs₂) =
        ((align_regional_kmers kmers m L rs₁).1 ++ (align_regional_kmers kmers m L rs₂).1,
         (align_regional_kmers kmers m L rs₁).2 ++ (align_regional_kmers kmers m L rs₂).2)) := by
  refine ⟨fun n => ?_, fun n => ?_, align_regional_kmers_append⟩ <;>
    simp [align_regional_kmers_chunk_size, filter_degenerate_sequences_chunk_size,
      intRange_accepts_iff]

/-- C10: the accepted domain of `max_mismatch` differs between the two
operations — `align_regional_kmers` registers `Int % Range(1, None)` and
rejects 0, requiring an integer of at least 1, while `reconstruct_counts`
registers `Int % Range(0, None)` and accepts 0, requiring only a
non-negative integer. -/
theorem max_mismatch_domains_differ :
    align_regional_kmers_max_mismatch.accepts (.int 0) = false ∧
    reconstruct_counts_max_mismatch.accepts (.int 0) = true ∧
    (∀ n : Int, align_regional_kmers_max_mismatch.accepts (.int n) = true ↔ 1 ≤ n) ∧
    (∀ n : Int, reconstruct_counts_max_mismatch.accepts (.int n) = true ↔ 0 ≤ n) := by
  refine ⟨rfl, rfl, fun n => ?_, fun n => ?_⟩ <;>
    simp [align_regional_kmers_max_mismatch, reconstruct_counts_max_mismatch,
      intRange_accepts_iff]

/-- Multiplying over a filtered list equals multiplying over the whole
list when every filtered-out element maps to 1. -/
theorem prod_filter_of_one {α : Type} (p : α → Bool) (f : α → Nat)
    (hf : ∀ a, p a = false → f a = 1) (l : List α) :
    ((l.filter p).map f).prod = (l.map f).prod := by
  induction l with
  | nil => rfl
  | cons a l ih =>
    cases hp : p a with
    | false => simp [List.filter_cons, hp, hf a hp, ih]
    | true => simp [List.filter_cons, hp, ih]

/-- The expansion set size is the product of all positions' branching
factors. -/
theorem expandAll_length (s : List Char) :
    (expandAll s).length = (s.map (fun c => (iupac c).length)).prod := by
  induction s with
  | nil => rfl
  | cons c rest ih =>
    rw [expandAll, List.length_flatMap]
    have hmap : List.map (List.length ∘ fun b => List.map (fun t => b :: t) (expandAll rest))
        (iupac c) = List.replicate (iupac c).length (expandAll rest).length := by
      apply List.eq_replicate_iff.mpr
      refine ⟨by simp, ?_⟩
      intro b hb
      simp only [List.mem_map, Function.comp] at hb
      obtain ⟨a, _, rfl⟩ := hb
      simp
    rw [hmap, List.sum_replicate, smul_eq_mul, List.map_cons, List.prod_cons, ih]

/-- The product of the degenerate positions' branching factors equals the
product over all positions. -/
theorem degenProduct_eq (s : List Char) :
    degenProduct s = (s.map (fun c => (iupac c).length)).prod := by
  refine prod_filter_of_one _ _ (fun a ha => ?_) s
  simpa using ha

/-- A position with a single possible base is that base itself. -/
theorem iupac_length_one (c : Char) (h : (iupac c).length = 1) : iupac c = [c] := by
  unfold iupac at h ⊢
  split at h <;> simp_all

/-- A fully concrete sequence expands to exactly itself. -/
theorem expandAll_concrete (s : List Char) (h : countDegen s = 0) :
    expandAll s = [s] := by
  induction s with
  | nil => rfl
  | cons c rest ih =>
    have hsplit : ((iupac c).length != 1) = false ∧ countDegen rest = 0 := by
      cases hb : ((iupac c).length != 1) with
      | false =>
        refine ⟨rfl, ?_⟩
        simpa [countDegen, List.filter_cons, hb] using h
      | true =>
        exfalso
        simp [countDegen, List.filter_cons, hb] at h
    have h1 : (iupac c).length = 1 := by simpa using hsplit.1
    rw [expandAll, iupac_length_one c h1, ih hsplit.2]
    simp

/-- C4: for every input whose count of degenerate positions is at most
`max_degen`, the Sequence Expander returns the concrete expansion set,
whose size is the product of the branching factors of its degenerate
positions; a fully concrete input yields exactly the singleton of itself;
and an input whose degenerate count exceeds `max_degen` fails with
`ExcessDegeneracy`. -/
theorem sequence_expander_spec (maxDegen : Nat) (s : List Char) :
    (countDegen s ≤ maxDegen →
      expand_degenerates maxDegen s = .ok (expandAll s) ∧
      (expandAll s).length = degenProduct s) ∧
    (maxDegen < countDegen s →
      expand_degenerates maxDegen s = .error .ExcessDegeneracy) ∧
    (countDegen s = 0 → expand_degenerates maxDegen s = .ok [s]) := by
  refine ⟨fun h => ⟨?_, ?_⟩, fun h => ?_, fun h => ?_⟩
  · simp [expand_degenerates, Nat.not_lt.mpr h]
  · rw [expandAll_length, degenProduct_eq]
  · simp [expand_degenerates, h]
  · have hle : countDegen s ≤ maxDegen := by omega
    simp [expand_degenerates, Nat.not_lt.mpr hle, expandAll_concrete s h]

/-- Witness for `sequence_expander_spec` at concrete inputs: `ART` with
budget 2 expands to its two concretizations, `ART` with budget 0 is
rejected, and the concrete `ACT` expands to itself. -/
theorem sequence_expander_spec_witness :
    expand_degenerates 2 ['A', 'R', 'T'] =
      .ok [['A', 'A', 'T'], ['A', 'G', 'T']] ∧
    expand_degenerates 0 ['A', 'R', 'T'] = .error .ExcessDegeneracy ∧
    expand_degenerates 2 ['A', 'C', 'T'] = .ok [['A', 'C', 'T']] := by
  refine ⟨?_, ?_, ?_⟩
  · rw [((sequence_expander_spec 2 ['A', 'R', 'T']).1 (by decide)).1]
    rfl
  · exact (sequence_expander_spec 0 ['A', 'R', 'T']).2.1 (by decide)
  · exact (sequence_expander_spec 2 ['A', 'C', 'T']).2.2 (by decide)

/-- Every record produced by `asvMatches` carries the ASV's id and a
mismatch count within the threshold. -/
theorem asvMatches_mem (kmers : List KmerEntry) (m : Nat) (r : RepSeq) :
    ∀ e ∈ asvMatches kmers m r, e.asv = r.asvId ∧ e.mismatch ≤ m := by
  intro e he
  simp only [asvMatches, List.mem_map, List.mem_filter] at he
  obtain ⟨k, ⟨_, hle⟩, rfl⟩ := he
  exact ⟨rfl, by simpa using hle⟩

/-- An ASV has no match record exactly when every kmer group is beyond
the mismatch threshold. -/
theorem asvMatches_eq_nil_iff (kmers : List KmerEntry) (m : Nat) (r : RepSeq) :
    asvMatches kmers m r = [] ↔ ∀ k ∈ kmers, m < hamming k.seq r.seq := by
  simp only [asvMatches, List.map_eq_nil_iff, List.filter_eq_nil_iff,
    decide_eq_true_eq, Nat.not_le]

/-- Unfolding equation: a representative of the wrong length is
discarded. -/
theorem align_cons_length_ne (kmers : List KmerEntry) (m L : Nat) (r : RepSeq)
    (rs : List RepSeq) (h : r.seq.length ≠ L) :
    align_regional_kmers kmers m L (r :: rs) =
      ((align_regional_kmers kmers m L rs).1,
       r.asvId :: (align_regional_kmers kmers m L rs).2) := by
  simp [align_regional_kmers, h]

/-- Unfolding equation: a representative with no qualifying match is
discarded. -/
theorem align_cons_nomatch (kmers : List KmerEntry) (m L : Nat) (r : RepSeq)
    (rs : List RepSeq) (h : r.seq.length = L) (hm : asvMatches kmers m r = []) :
    align_regional_kmers kmers m L (r :: rs) =
      ((align_regional_kmers kmers m L rs).1,
       r.asvId :: (align_regional_kmers kmers m L rs).2) := by
  simp [align_regional_kmers, h, hm]

/-- Unfolding equation: a representative with qualifying matches
contributes its records to the alignment. -/
theorem align_cons_match (kmers : List KmerEntry) (m L : Nat) (r : RepSeq)
    (rs : List RepSeq) (h : r.seq.length = L) (e : AlignRecord)
    (es : List AlignRecord) (hm : asvMatches kmers m r = e :: es) :
    align_regional_kmers kmers m L (r :: rs) =
      (e :: (es ++ (align_regional_kmers kmers m L rs).1),
       (align_regional_kmers kmers m L rs).2) := by
  simp [align_regional_kmers, h, hm]

/-- Structure of the aligner output: every alignment record comes from a
listed representative of the database trim length with a qualifying
match, and every discarded id comes from a listed representative of the
wrong length or with no qualifying match. -/
theorem align_mem_spec (kmers : List KmerEntry) (m L : Nat) (reps : List RepSeq) :
    (∀ e ∈ (align_regional_kmers kmers m L reps).1,
      ∃ r ∈ reps, e.asv = r.asvId ∧ e.mismatch ≤ m ∧ r.seq.length = L ∧
        asvMatches kmers m r ≠ []) ∧
    (∀ i ∈ (align_regional_kmers kmers m L reps).2,
      ∃ r ∈ reps, r.asvId = i ∧ (r.seq.length ≠ L ∨ asvMatches kmers m r = [])) := by
  induction reps with
  | nil => exact ⟨by simp [align_regional_kmers], by simp [align_regional_kmers]⟩
  | cons r rs ih =>
    rcases eq_or_ne r.seq.length L with hL | hL
    · rcases hm : asvMatches kmers m r with _ | ⟨e, es⟩
      · rw [align_cons_nomatch kmers m L r rs hL hm]
        constructor
        · intro a ha
          obtain ⟨r', hr', hrest⟩ := ih.1 a ha
          exact ⟨r', List.mem_cons_of_mem _ hr', hrest⟩
        · intro i hi
          rcases List.mem_cons.mp hi with rfl | hi'
          · exact ⟨r, List.mem_cons_self r rs, rfl, Or.inr hm⟩
          · obtain ⟨r', hr', hrest⟩ := ih.2 i hi'
            exact ⟨r', List.mem_cons_of_mem _ hr', hrest⟩
      · rw [align_cons_match kmers m L r rs hL e es hm]
        constructor
        · intro a ha
          rcases List.mem_cons.mp ha with rfl | ha'
          · have hmem : a ∈ asvMatches kmers m r := by
              rw [hm]; exact List.mem_cons_self a es
            have hprops := asvMatches_mem kmers m r a hmem
            exact ⟨r, List.mem_cons_self r rs, hprops.1, hprops.2, hL, by simp [hm]⟩
          · rcases List.mem_append.mp ha' with hin | hin
            · have hmem : a ∈ asvMatches kmers m r := by
                rw [hm]; exact List.mem_cons_of_mem _ hin
              have hprops := asvMatches_mem kmers m r a hmem
              exact ⟨r, List.mem_cons_self r rs, hprops.1, hprops.2, hL, by simp [hm]⟩
            · obtain ⟨r', hr', hrest⟩ := ih.1 a hin
              exact ⟨r', List.mem_cons_of_mem _ hr', hrest⟩
        · intro i hi
          obtain ⟨r', hr', hrest⟩ := ih.2 i hi
          exact ⟨r', List.mem_cons_of_mem _ hr', hrest⟩
    · rw [align_cons_length_ne kmers m L r rs hL]
      constructor
      · intro a ha
        obtain ⟨r', hr', hrest⟩ := ih.1 a ha
        exact ⟨r', List.mem_cons_of_mem _ hr', hrest⟩
      · intro i hi
        rcases List.mem_cons.mp hi with rfl | hi'
        · exact ⟨r, List.mem_cons_self r rs, rfl, Or.inl hL⟩
        · obtain ⟨r', hr', hrest⟩ := ih.2 i hi'
          exact ⟨r', List.mem_cons_of_mem _ hr', hrest⟩

/-- C5: in every alignment produced by the Kmer Aligner, every retained
(ASV, KmerGroup) pair is within `max_mismatch` Hamming distance; every
discarded ASV either has a length differing from the database trim
length or has no kmer group within `max_mismatch`; and (for distinct ASV
ids) a discarded ASV has no alignment entry. -/
theorem kmer_aligner_invariants (kmers : List KmerEntry) (m L : Nat)
    (reps : List RepSeq) (hnd : (reps.map RepSeq.asvId).Nodup) :
    (∀ e ∈ (align_regional_kmers kmers m L reps).1, e.mismatch ≤ m) ∧
    (∀ i ∈ (align_regional_kmers kmers m L reps).2, ∃ r ∈ reps, r.asvId = i ∧
      (r.seq.length ≠ L ∨ ∀ k ∈ kmers, m < hamming k.seq r.seq)) ∧
    (∀ i ∈ (align_regional_kmers kmers m L reps).2,
      ∀ e ∈ (align_regional_kmers kmers m L reps).1, e.asv ≠ i) := by
  obtain ⟨hal, hdisc⟩ := align_mem_spec kmers m L reps
  refine ⟨?_, ?_, ?_⟩
  · intro e he
    obtain ⟨r, _, _, h₂, _, _⟩ := hal e he
    exact h₂
  · intro i hi
    obtain ⟨r, hr, h₁, h₂⟩ := hdisc i hi
    refine ⟨r, hr, h₁, h₂.imp id fun hnil => ?_⟩
    exact (asvMatches_eq_nil_iff kmers m r).mp hnil
  · intro i hi e he heq
    obtain ⟨rd, hrd, hid, hcase⟩ := hdisc i hi
    obtain ⟨ra, hra, hasv, _, hlen, hne⟩ := hal e he
    have hids : ra.asvId = rd.asvId := by rw [← hasv, heq, ← hid]
    have hr : ra = rd := List.inj_on_of_nodup_map hnd hra hrd hids
    rcases hcase with hbad | hbad
    · exact hbad (hr ▸ hlen)
    · exact hne (hr ▸ hbad)

/-- Witness for `kmer_aligner_invariants`: one kmer `AC`, ASVs `a1=AC`
(matched with 0 mismatches), `a2=TT` (no match, discarded) and `a3=A`
(wrong length, discarded); the retained record is within the threshold
and carries an id distinct from the discarded ones. -/
theorem kmer_aligner_invariants_witness :
    (AlignRecord.mk "a1" "k1" 0).mismatch ≤ 0 ∧
    (AlignRecord.mk "a1" "k1" 0).asv ≠ "a2" := by
  constructor
  · exact (kmer_aligner_invariants [⟨"k1", ['A', 'C']⟩] 0 2
      [⟨"a1", ['A', 'C']⟩, ⟨"a2", ['T', 'T']⟩, ⟨"a3", ['A']⟩]
      (by decide)).1 (AlignRecord.mk "a1" "k1" 0) (by decide)
  · exact (kmer_aligner_invariants [⟨"k1", ['A', 'C']⟩] 0 2
      [⟨"a1", ['A', 'C']⟩, ⟨"a2", ['T', 'T']⟩, ⟨"a3", ['A']⟩]
      (by decide)).2.2 "a2" (by decide) (AlignRecord.mk "a1" "k1" 0) (by decide)

/-- Agreement with oneself keeps the whole taxonomy. -/
theorem commonRanks_self (t : List String) : commonRanks t t = t := by
  induction t with
  | nil => rfl
  | cons x xs ih => simp [commonRanks, ih]

/-- Leading segments: reflexive. -/
theorem leadsIn_refl (t : List String) : leadsIn t t := ⟨[], List.append_nil t⟩

/-- Leading segments: transitive. -/
theorem leadsIn_trans {p q r : List String} (h₁ : leadsIn p q) (h₂ : leadsIn q r) :
    leadsIn p r := by
  obtain ⟨s, rfl⟩ := h₁
  obtain ⟨s', rfl⟩ := h₂
  exact ⟨s ++ s', (List.append_assoc p s s').symm⟩

/-- Mutually leading segments are equal. -/
theorem leadsIn_antisymm {p q : List String} (hpq : leadsIn p q) (hqp : leadsIn q p) :
    p = q := by
  obtain ⟨s, hs⟩ := hpq
  obtain ⟨s', hs'⟩ := hqp
  have h1 : p.length + s.length = q.length := by
    simpa using congrArg List.length hs
  have h2 : q.length + s'.length = p.length := by
    simpa using congrArg List.length hs'
  have hs0 : s = [] := List.length_eq_zero.mp (by omega)
  subst hs0
  simpa using hs

/-- The rank agreement of two taxonomies is a leading segment of the
first. -/
theorem commonRanks_leadsIn_left (a : List String) :
    ∀ b, leadsIn (commonRanks a b) a := by
  induction a with
  | nil => intro b; exact ⟨[], rfl⟩
  | cons x xs ih =>
    intro b
    cases b with
    | nil => exact ⟨x :: xs, rfl⟩
    | cons y ys =>
      by_cases hxy : x = y
      · obtain ⟨s, hs⟩ := ih ys
        exact ⟨s, by simp [commonRanks, hxy, hs]⟩
      · exact ⟨x :: xs, by simp [commonRanks, hxy]⟩

/-- The rank agreement of two taxonomies is a leading segment of the
second. -/
theorem commonRanks_leadsIn_right (a : List String) :
    ∀ b, leadsIn (commonRanks a b) b := by
  induction a with
  | nil => intro b; exact ⟨b, rfl⟩
  | cons x xs ih =>
    intro b
    cases b with
    | nil => exact ⟨[], rfl⟩
    | cons y ys =>
      by_cases hxy : x = y
      · subst hxy
        obtain ⟨s, hs⟩ := ih ys
        exact ⟨s, by simp [commonRanks, hs]⟩
      · exact ⟨y :: ys, by simp [commonRanks, hxy]⟩

/-- Any common leading segment survives rank agreement. -/
theorem commonRanks_greatest (p : List String) :
    ∀ a b, leadsIn p a → leadsIn p b → leadsIn p (commonRanks a b) := by
  induction p with
  | nil => intro a b _ _; exact ⟨commonRanks a b, rfl⟩
  | cons x p ih =>
    intro a b ha hb
    obtain ⟨s, hs⟩ := ha
    obtain ⟨s', hs'⟩ := hb
    subst hs hs'
    simp only [List.cons_append, commonRanks, if_pos rfl]
    obtain ⟨u, hu⟩ := ih (p ++ s) (p ++ s') ⟨s, rfl⟩ ⟨s', rfl⟩
    exact ⟨u, by simp [hu]⟩

/-- The consensus fold is a leading segment of the accumulator and of
every folded taxonomy. -/
theorem foldl_commonRanks_leads (ts : List (List String)) :
    ∀ acc, leadsIn (ts.foldl commonRanks acc) acc ∧
      ∀ t ∈ ts, leadsIn (ts.foldl commonRanks acc) t := by
  induction ts with
  | nil => intro acc; exact ⟨leadsIn_refl acc, by simp⟩
  | cons t ts ih =>
    intro acc
    have h := ih (commonRanks acc t)
    refine ⟨leadsIn_trans h.1 (commonRanks_leadsIn_left acc t), ?_⟩
    intro u hu
    rcases List.mem_cons.mp hu with rfl | hu'
    · exact leadsIn_trans h.1 (commonRanks_leadsIn_right acc u)
    · exact h.2 u hu'

/-- Any common leading segment of the accumulator and of every folded
taxonomy survives the consensus fold. -/
theorem foldl_commonRanks_greatest (ts : List (List String)) :
    ∀ acc p, leadsIn p acc → (∀ t ∈ ts, leadsIn p t) →
      leadsIn p (ts.foldl commonRanks acc) := by
  induction ts with
  | nil => intro acc p h _; exact h
  | cons t ts ih =>
    intro acc p hacc hts
    exact ih _ p
      (commonRanks_greatest p acc t hacc (hts t (List.mem_cons_self t ts)))
      (fun u hu => hts u (List.mem_cons_of_mem _ hu))

/-- Two taxonomies differing only at the deepest rank agree exactly on
the shared leading ranks. -/
theorem commonRanks_append_ne (xs : List String) (a b : String) (h : a ≠ b) :
    commonRanks (xs ++ [a]) (xs ++ [b]) = xs := by
  induction xs with
  | nil => simp [commonRanks, h]
  | cons x xs ih => simp [commonRanks, ih]

/-- C6: the consensus taxonomy of a final feature keeps exactly the
ranks (from the root) on which all contributing references agree and
truncates at the first disagreement — it is a leading segment of every
contributing taxonomy and extends every common leading segment; in
particular identical taxonomies yield themselves, and taxonomies
differing only at the deepest rank yield the shared leading ranks. -/
theorem taxonomy_consensus_spec (taxa : List (List String)) (hne : taxa ≠ []) :
    (∀ t ∈ taxa, leadsIn (reconstruct_taxonomy taxa) t) ∧
    (∀ p, (∀ t ∈ taxa, leadsIn p t) → leadsIn p (reconstruct_taxonomy taxa)) ∧
    (∀ t, (∀ u ∈ taxa, u = t) → reconstruct_taxonomy taxa = t) ∧
    (∀ xs a b, a ≠ b → reconstruct_taxonomy [xs ++ [a], xs ++ [b]] = xs) := by
  rcases taxa with _ | ⟨t0, ts⟩
  · exact absurd rfl hne
  have hfold := foldl_commonRanks_leads ts t0
  have h1 : ∀ t ∈ t0 :: ts, leadsIn (reconstruct_taxonomy (t0 :: ts)) t := by
    intro t ht
    rcases List.mem_cons.mp ht with rfl | ht'
    · exact hfold.1
    · exact hfold.2 t ht'
  have h2 : ∀ p, (∀ t ∈ t0 :: ts, leadsIn p t) →
      leadsIn p (reconstruct_taxonomy (t0 :: ts)) := by
    intro p hp
    exact foldl_commonRanks_greatest ts t0 p (hp t0 (List.mem_cons_self t0 ts))
      (fun u hu => hp u (List.mem_cons_of_mem _ hu))
  refine ⟨h1, h2, ?_, ?_⟩
  · intro t ht
    have ha := h1 t0 (List.mem_cons_self t0 ts)
    nth_rewrite 2 [ht t0 (List.mem_cons_self t0 ts)] at ha
    exact leadsIn_antisymm ha
      (h2 t (fun u hu => by rw [ht u hu]; exact leadsIn_refl t))
  · intro xs a b hab
    simp [reconstruct_taxonomy, commonRanks_append_ne xs a b hab]

/-- Witness for `taxonomy_consensus_spec`: identical taxonomies give back
the same string, and taxonomies differing only at the deepest rank give
the shared leading ranks. -/
theorem taxonomy_consensus_spec_witness :
    reconstruct_taxonomy [["k", "p", "c"], ["k", "p", "c"]] = ["k", "p", "c"] ∧
    reconstruct_taxonomy [["k", "p", "c1"], ["k", "p", "c2"]] = ["k", "p"] := by
  constructor
  · exact (taxonomy_consensus_spec [["k", "p", "c"], ["k", "p", "c"]]
      (by decide)).2.2.1 ["k", "p", "c"] (by decide)
  · exact (taxonomy_consensus_spec [["k", "p", "c1"], ["k", "p", "c2"]]
      (by decide)).2.2.2 ["k", "p"] "c1" "c2" (by decide)

/-- Even redistribution conserves the ASV's abundance: the per-feature
shares sum back to the original value whenever the ASV maps to at least
one final feature. -/
theorem redistribute_sum (comps : List (List Nat)) (asvRefs : List Nat) (a : Rat)
    (h : asvFeatures comps asvRefs ≠ []) :
    ((redistribute comps asvRefs a).map Prod.snd).sum = a := by
  unfold redistribute
  have hlen : ((asvFeatures comps asvRefs).length : Rat) ≠ 0 := by
    simpa [Nat.cast_ne_zero] using
      fun hh => h (List.length_eq_zero.mp hh)
  rw [List.map_map]
  rw [show (Prod.snd ∘ fun f : List Nat =>
      (f, a / ((asvFeatures comps asvRefs).length : Rat))) =
      fun _ => a / ((asvFeatures comps asvRefs).length : Rat) from rfl]
  rw [List.map_const', List.sum_replicate, nsmul_eq_mul, mul_comm,
    div_mul_cancel₀ a hlen]

/-- Weighted redistribution conserves the ASV's abundance whenever the
total weight over its final features is nonzero. -/
theorem redistributeWeighted_sum (w : List Nat → Rat) (comps : List (List Nat))
    (asvRefs : List Nat) (a : Rat)
    (h : ((asvFeatures comps asvRefs).map w).sum ≠ 0) :
    ((redistributeWeighted w comps asvRefs a).map Prod.snd).sum = a := by
  unfold redistributeWeighted
  rw [List.map_map]
  rw [show (Prod.snd ∘ fun f : List Nat =>
      (f, a * (w f / ((asvFeatures comps asvRefs).map w).sum))) =
      fun f => a * (w f / ((asvFeatures comps asvRefs).map w).sum) from rfl]
  have heach : (fun f => a * (w f / ((asvFeatures comps asvRefs).map w).sum)) =
      fun f => w f * (a / ((asvFeatures comps asvRefs).map w).sum) := by
    funext f
    ring
  rw [heach, List.sum_map_mul_right, mul_comm, div_mul_cancel₀ a h]

/-- C2: for every ASV with abundance `a`, the redistributed abundance
contributions across all of its matched final features sum back to `a`
(before `min_abund` post-filtering), both under the even split and under
any degeneracy-derived weighting with nonzero total weight. -/
theorem reconstruction_conservation (comps : List (List Nat)) (asvRefs : List Nat)
    (a : Rat) (w : List Nat → Rat) :
    (asvFeatures comps asvRefs ≠ [] →
      ((redistribute comps asvRefs a).map Prod.snd).sum = a) ∧
    (((asvFeatures comps asvRefs).map w).sum ≠ 0 →
      ((redistributeWeighted w comps asvRefs a).map Prod.snd).sum = a) :=
  ⟨redistribute_sum comps asvRefs a, redistributeWeighted_sum w comps asvRefs a⟩

/-- Witness for `reconstruction_conservation`: an ASV of abundance 10
covering references 1 and 2 maps to the two singleton features, and both
split modes hand back a total of 10. -/
theorem reconstruction_conservation_witness :
    ((redistribute [[1], [2], [3]] [1, 2] 10).map Prod.snd).sum = 10 ∧
    ((redistributeWeighted (fun c => (c.length : Rat)) [[1], [2], [3]]
        [1, 2] 10).map Prod.snd).sum = 10 := by
  constructor
  · exact (reconstruction_conservation [[1], [2], [3]] [1, 2] 10
      (fun c => (c.length : Rat))).1 (by decide)
  · refine (reconstruction_conservation [[1], [2], [3]] [1, 2] 10
      (fun c => (c.length : Rat))).2 ?_
    norm_num [asvFeatures, meets, List.filter]

/-- Two reference lists meet exactly when they share an element. -/
theorem meets_iff (a b : List Nat) : meets a b = true ↔ ∃ x ∈ a, x ∈ b := by
  simp [meets, List.any_eq_true]

/-- Meeting only depends on the membership of the first argument. -/
theorem meets_eq_of_mem_iff {a a' : List Nat} (b : List Nat)
    (h : ∀ x, x ∈ a ↔ x ∈ a') : meets a b = meets a' b := by
  rw [Bool.eq_iff_iff, meets_iff, meets_iff]
  constructor
  · rintro ⟨x, hx, hxb⟩
    exact ⟨x, (h x).mp hx, hxb⟩
  · rintro ⟨x, hx, hxb⟩
    exact ⟨x, (h x).mpr hx, hxb⟩

/-- Membership in a merged component: either in the edge itself or in a
touched existing component. -/
theorem mem_mergedComp (e : List Nat) (comps : List (List Nat)) (x : Nat) :
    x ∈ mergedComp e comps ↔
      x ∈ e ∨ ∃ c ∈ comps, meets c e = true ∧ x ∈ c := by
  simp only [mergedComp, List.mem_dedup, List.mem_append, List.mem_flatten,
    List.mem_filter]
  constructor
  · rintro (hx | ⟨c, ⟨hc, hm⟩, hxc⟩)
    · exact Or.inl hx
    · exact Or.inr ⟨c, hc, hm, hxc⟩
  · rintro (hx | ⟨c, hc, hm, hxc⟩)
    · exact Or.inl hx
    · exact Or.inr ⟨c, ⟨hc, hm⟩, hxc⟩

/-- Unfolding equation: inserting an empty edge changes nothing. -/
theorem insertEdge_nil (e : List Nat) (comps : List (List Nat))
    (h : e.isEmpty = true) : insertEdge e comps = comps := by
  simp [insertEdge, h]

/-- Unfolding equation: inserting a nonempty edge keeps untouched
components and replaces the touched ones by the merged component. -/
theorem insertEdge_cons (e : List Nat) (comps : List (List Nat))
    (h : e.isEmpty = false) :
    insertEdge e comps =
      mergedComp e comps :: comps.filter (fun c => !(meets c e)) := by
  simp [insertEdge, h]

/-- Disjointness of reference lists is symmetric. -/
theorem refDisjoint_symm : Symmetric RefDisjoint :=
  fun _ _ h x hx1 hx2 => h x hx2 hx1

/-- The components produced for an edge list are all nonempty. -/
theorem components_nonempty (edges : List (List Nat)) :
    ∀ c ∈ components edges, c ≠ [] := by
  induction edges with
  | nil => simp [components]
  | cons e rest ih =>
    intro c hc
    have hrw : components (e :: rest) = insertEdge e (components rest) := rfl
    rw [hrw] at hc
    cases hemp : e.isEmpty with
    | true =>
      rw [insertEdge_nil e _ hemp] at hc
      exact ih c hc
    | false =>
      rw [insertEdge_cons e _ hemp] at hc
      rcases List.mem_cons.mp hc with rfl | hc'
      · intro hnil
        have he : e = [] := (List.append_eq_nil.mp ((List.dedup_eq_nil _).mp hnil)).1
        rw [he] at hemp
        simp at hemp
      · exact ih c (List.mem_filter.mp hc').1

/-- Inserting an edge preserves pairwise disjointness of the
components. -/
theorem insertEdge_disjoint (e : List Nat) (comps : List (List Nat))
    (h : comps.Pairwise RefDisjoint) :
    (insertEdge e comps).Pairwise RefDisjoint := by
  cases hemp : e.isEmpty with
  | true => rwa [insertEdge_nil e _ hemp]
  | false =>
    rw [insertEdge_cons e _ hemp]
    refine List.pairwise_cons.mpr ⟨?_, ?_⟩
    · intro c hc x hx1 hx2
      have hcm := List.mem_filter.mp hc
      have hcnot : meets c e = false := by
        have := hcm.2
        simp at this
        exact this
      rcases (mem_mergedComp e comps x).mp hx1 with hxe | ⟨c', hc', hm', hxc'⟩
      · have : meets c e = true := (meets_iff c e).mpr ⟨x, hx2, hxe⟩
        rw [hcnot] at this
        exact Bool.false_ne_true this
      · have hne : c' ≠ c := by
          intro heq
          rw [heq, hcnot] at hm'
          exact Bool.false_ne_true hm'
        exact h.forall refDisjoint_symm hc' hcm.1 hne x hxc' hx2
    · exact List.Pairwise.sublist (List.filter_sublist comps) h

/-- C1 core: the components are pairwise disjoint reference sets. -/
theorem components_disjoint (edges : List (List Nat)) :
    (components edges).Pairwise RefDisjoint := by
  induction edges with
  | nil => simp [components]
  | cons e rest ih => exact insertEdge_disjoint e (components rest) ih

/-- Every member of every component is observed in some edge. -/
theorem components_observed (edges : List (List Nat)) :
    ∀ c ∈ components edges, ∀ x ∈ c, ∃ e ∈ edges, x ∈ e := by
  induction edges with
  | nil => simp [components]
  | cons e rest ih =>
    intro c hc x hx
    have hrw : components (e :: rest) = insertEdge e (components rest) := rfl
    rw [hrw] at hc
    cases hemp : e.isEmpty with
    | true =>
      rw [insertEdge_nil e _ hemp] at hc
      obtain ⟨e', he', hxe'⟩ := ih c hc x hx
      exact ⟨e', List.mem_cons_of_mem _ he', hxe'⟩
    | false =>
      rw [insertEdge_cons e _ hemp] at hc
      rcases List.mem_cons.mp hc with rfl | hc'
      · rcases (mem_mergedComp e _ x).mp hx with hxe | ⟨c', hc', _, hxc'⟩
        · exact ⟨e, List.mem_cons_self e rest, hxe⟩
        · obtain ⟨e', he', hxe'⟩ := ih c' hc' x hxc'
          exact ⟨e', List.mem_cons_of_mem _ he', hxe'⟩
      · obtain ⟨e', he', hxe'⟩ := ih c (List.mem_filter.mp hc').1 x hx
        exact ⟨e', List.mem_cons_of_mem _ he', hxe'⟩

/-- Link reachability is monotone in the edge list. -/
theorem Reach.mono {E₁ E₂ : List (List Nat)} (hsub : ∀ e ∈ E₁, e ∈ E₂)
    {x y : Nat} (h : Reach E₁ x y) : Reach E₂ x y := by
  induction h with
  | edge e x y he hx hy => exact .edge e x y (hsub e he) hx hy
  | trans x y z _ _ ih₁ ih₂ => exact .trans x y z ih₁ ih₂

/-- Soundness: two references in the same computed component are linked
by a chain of edges. -/
theorem components_sound (edges : List (List Nat)) :
    ∀ c ∈ components edges, ∀ x ∈ c, ∀ y ∈ c, Reach edges x y := by
  induction edges with
  | nil => simp [components]
  | cons e rest ih =>
    intro c hc x hx y hy
    have hrw : components (e :: rest) = insertEdge e (components rest) := rfl
    rw [hrw] at hc
    have hmono : ∀ e' ∈ rest, e' ∈ e :: rest := fun e' he' =>
      List.mem_cons_of_mem _ he'
    cases hemp : e.isEmpty with
    | true =>
      rw [insertEdge_nil e _ hemp] at hc
      exact (ih c hc x hx y hy).mono hmono
    | false =>
      rw [insertEdge_cons e _ hemp] at hc
      rcases List.mem_cons.mp hc with rfl | hc'
      · rcases (mem_mergedComp e _ x).mp hx with hxe | ⟨cx, hcx, hmx, hxcx⟩ <;>
          rcases (mem_mergedComp e _ y).mp hy with hye | ⟨cy, hcy, hmy, hycy⟩
        · exact .edge e x y (List.mem_cons_self e rest) hxe hye
        · obtain ⟨z, hzc, hze⟩ := (meets_iff cy e).mp hmy
          refine .trans x z y (.edge e x z (List.mem_cons_self e rest) hxe hze) ?_
          exact (ih cy hcy z hzc y hycy).mono hmono
        · obtain ⟨z, hzc, hze⟩ := (meets_iff cx e).mp hmx
          refine .trans x z y ((ih cx hcx x hxcx z hzc).mono hmono) ?_
          exact .edge e z y (List.mem_cons_self e rest) hze hye
        · obtain ⟨zx, hzxc, hzxe⟩ := (meets_iff cx e).mp hmx
          obtain ⟨zy, hzyc, hzye⟩ := (meets_iff cy e).mp hmy
          refine .trans x zx y ((ih cx hcx x hxcx zx hzxc).mono hmono) ?_
          refine .trans zx zy y (.edge e zx zy (List.mem_cons_self e rest) hzxe hzye) ?_
          exact (ih cy hcy zy hzyc y hycy).mono hmono
      · exact (ih c (List.mem_filter.mp hc').1 x hx y hy).mono hmono

/-- Inserting an edge keeps previously co-located references
co-located. -/
theorem insertEdge_preserves (e : List Nat) (comps : List (List Nat))
    (c : List Nat) (x y : Nat) (hc : c ∈ comps) (hx : x ∈ c) (hy : y ∈ c) :
    ∃ c' ∈ insertEdge e comps, x ∈ c' ∧ y ∈ c' := by
  cases hemp : e.isEmpty with
  | true =>
    rw [insertEdge_nil e _ hemp]
    exact ⟨c, hc, hx, hy⟩
  | false =>
    rw [insertEdge_cons e _ hemp]
    cases hm : meets c e with
    | true =>
      refine ⟨mergedComp e comps, List.mem_cons_self _ _, ?_, ?_⟩
      · exact (mem_mergedComp e comps x).mpr (Or.inr ⟨c, hc, hm, hx⟩)
      · exact (mem_mergedComp e comps y).mpr (Or.inr ⟨c, hc, hm, hy⟩)
    | false =>
      refine ⟨c, List.mem_cons_of_mem _ (List.mem_filter.mpr ⟨hc, ?_⟩), hx, hy⟩
      simp [hm]

/-- Two references sharing an edge land in one computed component. -/
theorem components_edge_covered (edges : List (List Nat)) (e : List Nat)
    (x y : Nat) (he : e ∈ edges) (hx : x ∈ e) (hy : y ∈ e) :
    ∃ c ∈ components edges, x ∈ c ∧ y ∈ c := by
  induction edges with
  | nil => simp at he
  | cons e0 rest ih =>
    have hrw : components (e0 :: rest) = insertEdge e0 (components rest) := rfl
    rcases List.mem_cons.mp he with rfl | he'
    · have hemp : e.isEmpty = false := by
        cases e with
        | nil => simp at hx
        | cons a as => rfl
      rw [hrw, insertEdge_cons e _ hemp]
      exact ⟨mergedComp e (components rest), List.mem_cons_self _ _,
        (mem_mergedComp e _ x).mpr (Or.inl hx),
        (mem_mergedComp e _ y).mpr (Or.inl hy)⟩
    · obtain ⟨c, hc, hxc, hyc⟩ := ih he'
      rw [hrw]
      exact insertEdge_preserves e0 (components rest) c x y hc hxc hyc

/-- Completeness: linked references land in one computed component. -/
theorem components_complete (edges : List (List Nat)) (x y : Nat)
    (h : Reach edges x y) : ∃ c ∈ components edges, x ∈ c ∧ y ∈ c := by
  induction h with
  | edge e x y he hx hy => exact components_edge_covered edges e x y he hx hy
  | trans x y z _ _ ih₁ ih₂ =>
    obtain ⟨c₁, hc₁, hx₁, hy₁⟩ := ih₁
    obtain ⟨c₂, hc₂, hy₂, hz₂⟩ := ih₂
    have hceq : c₁ = c₂ := by
      by_contra hne
      exact (components_disjoint edges).forall refDisjoint_symm hc₁ hc₂ hne y hy₁ hy₂
    exact ⟨c₁, hc₁, hx₁, hceq ▸ hz₂⟩

/-- A computed component is exactly the reachability class of any of its
members. -/
theorem components_class (edges : List (List Nat)) (c : List Nat) (x : Nat)
    (hc : c ∈ components edges) (hx : x ∈ c) :
    ∀ y, y ∈ c ↔ Reach edges x y := by
  intro y
  constructor
  · exact fun hy => components_sound edges c hc x hx y hy
  · intro hr
    obtain ⟨c', hc', hx', hy'⟩ := components_complete edges x y hr
    have hceq : c = c' := by
      by_contra hne
      exact (components_disjoint edges).forall refDisjoint_symm hc hc' hne x hx hx'
    exact hceq ▸ hy'

/-- Canonicalization preserves membership. -/
theorem mem_canonRefs (c : List Nat) (x : Nat) : x ∈ canonRefs c ↔ x ∈ c := by
  unfold canonRefs
  rw [List.Perm.mem_iff (List.perm_insertionSort _ _), List.mem_dedup]

/-- Canonicalized reference sets have no duplicates. -/
theorem canonRefs_nodup (c : List Nat) : (canonRefs c).Nodup :=
  (List.Perm.nodup_iff (List.perm_insertionSort _ _)).mpr (List.nodup_dedup c)

/-- Canonicalized reference sets are sorted. -/
theorem canonRefs_sorted (c : List Nat) :
    List.Sorted (fun a b => a ≤ b) (canonRefs c) :=
  List.sorted_insertionSort _ _

/-- The canonical form is determined by membership alone: reference sets
with the same members canonicalize identically, whatever their
presentation order. -/
theorem canonRefs_eq_of_mem_iff {c₁ c₂ : List Nat}
    (h : ∀ x, x ∈ c₁ ↔ x ∈ c₂) : canonRefs c₁ = canonRefs c₂ := by
  refine List.eq_of_perm_of_sorted ?_ (canonRefs_sorted c₁) (canonRefs_sorted c₂)
  refine (List.perm_ext_iff_of_nodup (canonRefs_nodup c₁) (canonRefs_nodup c₂)).mpr ?_
  intro a
  rw [mem_canonRefs, mem_canonRefs]
  exact h a

/-- One direction of the canonical component-set correspondence between
membership-equivalent edge lists. -/
theorem canon_components_mono (E₁ E₂ : List (List Nat))
    (hmem : ∀ e, e ∈ E₁ ↔ e ∈ E₂) (r : List Nat)
    (hr : r ∈ (components E₁).map canonRefs) :
    r ∈ (components E₂).map canonRefs := by
  obtain ⟨c, hc, rfl⟩ := List.mem_map.mp hr
  obtain ⟨x, hx⟩ := List.exists_mem_of_ne_nil c (components_nonempty E₁ c hc)
  obtain ⟨e, he, hxe⟩ := components_observed E₁ c hc x hx
  obtain ⟨c', hc', hxc', _⟩ :=
    components_edge_covered E₂ e x x ((hmem e).mp he) hxe hxe
  refine List.mem_map.mpr ⟨c', hc', ?_⟩
  refine (canonRefs_eq_of_mem_iff ?_).symm
  intro y
  rw [components_class E₂ c' x hc' hxc' y, components_class E₁ c x hc hx y]
  constructor
  · exact Reach.mono (fun e' he' => (hmem e').mp he')
  · exact Reach.mono (fun e' he' => (hmem e').mpr he')

/-- The canonical component sets of permuted edge lists coincide as
multisets: chunk completion order does not change the final features. -/
theorem components_canon_perm (edges₁ edges₂ : List (List Nat))
    (h : edges₁.Perm edges₂) :
    ((components edges₁).map canonRefs).Perm
      ((components edges₂).map canonRefs) := by
  have hnodup : ∀ E : List (List Nat), ((components E).map canonRefs).Nodup := by
    intro E
    rw [List.Nodup, List.pairwise_map]
    refine List.Pairwise.imp_of_mem ?_ (components_disjoint E)
    intro a b ha hb hdisj heq
    obtain ⟨x, hx⟩ := List.exists_mem_of_ne_nil a (components_nonempty E a ha)
    have hxa : x ∈ canonRefs a := (mem_canonRefs a x).mpr hx
    rw [heq] at hxa
    exact hdisj x hx ((mem_canonRefs b x).mp hxa)
  refine (List.perm_ext_iff_of_nodup (hnodup edges₁) (hnodup edges₂)).mpr ?_
  intro r
  constructor
  · exact canon_components_mono edges₁ edges₂ (fun e => h.mem_iff) r
  · exact canon_components_mono edges₂ edges₁ (fun e => h.symm.mem_iff) r

/-- C1: the final-feature reference sets of the ReconstructionMap are
pairwise disjoint — no reference id appears under two different final
features — and every reference they mention was observed in at least one
region's alignment edge. -/
theorem reconstruction_partition (edges : List (List Nat)) :
    ((reconstruction_map edges).map Prod.snd).Pairwise RefDisjoint ∧
    (∀ p ∈ reconstruction_map edges, ∀ x ∈ p.2, ∃ e ∈ edges, x ∈ e) := by
  constructor
  · have hrw : (reconstruction_map edges).map Prod.snd =
        (components edges).map canonRefs := by
      unfold reconstruction_map
      rw [List.map_map]
      rfl
    rw [hrw, List.pairwise_map]
    refine List.Pairwise.imp ?_ (components_disjoint edges)
    intro a b hdisj x hx1 hx2
    exact hdisj x ((mem_canonRefs a x).mp hx1) ((mem_canonRefs b x).mp hx2)
  · intro p hp x hx
    obtain ⟨c, hc, rfl⟩ := List.mem_map.mp hp
    exact components_observed edges c hc x ((mem_canonRefs c x).mp hx)

/-- Witness for `reconstruction_partition`: with edges 1-2, 2-3, 5 the
map's reference sets (the merged feature 1,2,3 and the lone feature 5)
are pairwise disjoint. -/
theorem reconstruction_partition_witness :
    ((reconstruction_map [[1, 2], [2, 3], [5]]).map Prod.snd).Pairwise RefDisjoint :=
  (reconstruction_partition [[1, 2], [2, 3], [5]]).1

/-- The canonicalized features an ASV maps to can be computed after
canonicalizing the components. -/
theorem asvFeatures_canon_eq (comps : List (List Nat)) (asvRefs : List Nat) :
    (asvFeatures comps asvRefs).map canonRefs =
      (comps.map canonRefs).filter (fun r => meets r asvRefs) := by
  rw [List.filter_map]
  unfold asvFeatures
  congr 1
  apply List.filter_congr
  intro c _
  exact meets_eq_of_mem_iff asvRefs (fun x => (mem_canonRefs c x).symm)

/-- Permuted edge lists give the same canonical matched features for any
ASV. -/
theorem asvFeatures_perm (edges₁ edges₂ : List (List Nat))
    (h : edges₁.Perm edges₂) (asvRefs : List Nat) :
    ((asvFeatures (components edges₁) asvRefs).map canonRefs).Perm
      ((asvFeatures (components edges₂) asvRefs).map canonRefs) := by
  rw [asvFeatures_canon_eq, asvFeatures_canon_eq]
  exact (components_canon_perm edges₁ edges₂ h).filter _

/-- Permuted edge lists give the same number of matched features for any
ASV. -/
theorem asvFeatures_length_eq (edges₁ edges₂ : List (List Nat))
    (h : edges₁.Perm edges₂) (asvRefs : List Nat) :
    (asvFeatures (components edges₁) asvRefs).length =
      (asvFeatures (components edges₂) asvRefs).length := by
  have hlen := (asvFeatures_perm edges₁ edges₂ h asvRefs).length_eq
  simpa using hlen

/-- The contribution of one ASV to one final feature id, written as a
count of matching features times the even share. -/
theorem contribution_as_count (edges : List (List Nat)) (asvRefs : List Nat)
    (a : Rat) (fid : String) :
    (((redistribute (components edges) asvRefs a).filter
        (fun p => featureId p.1 == fid)).map Prod.snd).sum =
      (((asvFeatures (components edges) asvRefs).map canonRefs).filter
        (fun r => String.intercalate "|" (r.map Nat.repr) == fid)).length •
        (a / ((asvFeatures (components edges) asvRefs).length : Rat)) := by
  unfold redistribute
  rw [List.filter_map, List.map_map]
  rw [show ((fun p : List Nat × Rat => featureId p.1 == fid) ∘
      (fun f => (f, a / ((asvFeatures (components edges) asvRefs).length : Rat)))) =
      fun f => featureId f == fid from rfl]
  rw [show (Prod.snd ∘ (fun f : List Nat =>
      (f, a / ((asvFeatures (components edges) asvRefs).length : Rat)))) =
      fun _ => a / ((asvFeatures (components edges) asvRefs).length : Rat) from rfl]
  rw [List.map_const', List.sum_replicate]
  congr 1
  rw [List.filter_map, List.length_map]
  rfl

/-- Permuted edge lists produce the identical reconstructed table, cell
by cell. -/
theorem reconstructed_table_det (edges₁ edges₂ : List (List Nat))
    (h : edges₁.Perm edges₂) (obs : List Observation) (fid sample : String) :
    reconstructed_table edges₁ obs fid sample =
      reconstructed_table edges₂ obs fid sample := by
  unfold reconstructed_table
  congr 1
  apply List.map_congr_left
  intro o _
  rw [contribution_as_count, contribution_as_count]
  have hlen := asvFeatures_length_eq edges₁ edges₂ h o.asvRefs
  have hcount := ((asvFeatures_perm edges₁ edges₂ h o.asvRefs).filter
      (fun r => String.intercalate "|" (r.map Nat.repr) == fid)).length_eq
  rw [hcount, hlen]

/-- C3: the Reconstruction Engine is deterministic.  It is a pure
function of its inputs (so identical inputs give identical outputs), and
reordering the per-region/per-chunk link edges — the effect of varying
chunk or parallelism settings on the commutative merge — leaves the
ReconstructionMap the same multiset of entries and every cell of the
ReconstructedTable identical; final feature ids are a function of the
sorted set of contributing reference ids only, not of iteration order. -/
theorem reconstruction_deterministic (edges₁ edges₂ : List (List Nat))
    (h : edges₁.Perm edges₂) :
    (reconstruction_map edges₁).Perm (reconstruction_map edges₂) ∧
    (∀ (obs : List Observation) (fid sample : String),
      reconstructed_table edges₁ obs fid sample =
        reconstructed_table edges₂ obs fid sample) ∧
    (∀ c₁ c₂ : List Nat, (∀ x, x ∈ c₁ ↔ x ∈ c₂) → featureId c₁ = featureId c₂) := by
  refine ⟨?_, reconstructed_table_det edges₁ edges₂ h, ?_⟩
  · have hrw : ∀ E : List (List Nat), reconstruction_map E =
        ((components E).map canonRefs).map
          (fun r => (String.intercalate "|" (r.map Nat.repr), r)) := by
      intro E
      unfold reconstruction_map
      rw [List.map_map]
      rfl
    rw [hrw, hrw]
    exact (components_canon_perm edges₁ edges₂ h).map _
  · intro c₁ c₂ hc
    unfold featureId
    rw [canonRefs_eq_of_mem_iff hc]

/-- Witness for `reconstruction_deterministic`: reordering the edges
1-2, 2-3, 5 leaves the reconstruction map the same multiset, the table
cell of feature `1|2|3` identical, and the id of reference set 1,2 is
independent of presentation order. -/
theorem reconstruction_deterministic_witness :
    (reconstruction_map [[1, 2], [2, 3], [5]]).Perm
      (reconstruction_map [[5], [2, 3], [1, 2]]) ∧
    reconstructed_table [[1, 2], [2, 3], [5]]
        [⟨[1, 2], "s1", 10⟩] "1|2|3" "s1" =
      reconstructed_table [[5], [2, 3], [1, 2]]
        [⟨[1, 2], "s1", 10⟩] "1|2|3" "s1" ∧
    featureId [2, 1] = featureId [1, 2] := by
  have hperm : ([[1, 2], [2, 3], [5]] : List (List Nat)).Perm
      [[5], [2, 3], [1, 2]] := by decide
  refine ⟨(reconstruction_deterministic _ _ hperm).1,
    (reconstruction_deterministic _ _ hperm).2.1 [⟨[1, 2], "s1", 10⟩] "1|2|3" "s1",
    (reconstruction_deterministic _ _ hperm).2.2 [2, 1] [1, 2] ?_⟩
  intro x
  simp only [List.mem_cons, List.not_mem_nil, or_false]
  tauto

end Sidle
